import Mathlib

/-!
Verification development for the Data_Engine_CSV repository
(StreamProcessor, WindowAggregator, DataEngine).

The TypeScript sources are shallowly embedded: JavaScript objects become
association lists, JS numbers become rationals, JS `Map` becomes an
insertion-ordered association list, and the asynchronous stream machinery
becomes explicit state passing.  Timestamps (`Date.now()` values) are
modelled as integers.
-/

/-- A JavaScript value stored in a CSV record: either a number or a string
(`src/types/index.ts`: `CSVRecord` maps keys to `string | number`). -/
inductive JsValue where
  | num (q : ℚ)
  | str (s : String)
deriving DecidableEq, Repr

/-- A decoded CSV record: an ordered string-keyed mapping
(`src/types/index.ts`, interface `CSVRecord`).  JS objects cannot hold
duplicate keys; theorems that need this assume `Nodup` on the key list. -/
abbrev CSVRecord : Type := List (String × JsValue)

/-- `ProcessingOptions` from `src/types/index.ts`. -/
structure ProcessingOptions where
  batchSize : Int
  windowSize : Int
  slidingInterval : Int
deriving DecidableEq, Repr

/-! ## StreamProcessor (`src/processors/StreamProcessor.ts`) -/

/-- `Math.ceil(n / 4)` on a natural number, as computed in
`StreamProcessor.processBatch` (`Math.ceil(batch.length / 4)`). -/
def ceil4 (n : Nat) : Nat := (n + 3) / 4

/-- `StreamProcessor.chunkArray(array, size)`: consecutive slices of length
`size` (`array.slice(i, i + size)` for `i = 0, size, 2*size, ...`).
With `size = 0` the JS loop never advances; all call sites pass
`size = Math.ceil(batch.length / 4) ≥ 1`, so that case is mapped to `[]`. -/
def chunkArray : List α → Nat → List (List α)
  | [], _ => []
  | _ :: _, 0 => []
  | x :: xs, n + 1 => (x :: xs).take (n + 1) :: chunkArray ((x :: xs).drop (n + 1)) (n + 1)
termination_by l _ => l.length
decreasing_by simp [List.length_drop]; omega

/-- Stamping one record in `StreamProcessor.processChunk`:
`{ ...record, timestamp: Date.now() }`.  Object spread keeps an existing
`timestamp` key in place (overwritten), otherwise appends the new key. -/
def stampRecord (r : CSVRecord) (t : Int) : CSVRecord :=
  if (r.map Prod.fst).contains "timestamp" then
    r.map (fun kv => if kv.1 = "timestamp" then (kv.1, JsValue.num (t : ℚ)) else kv)
  else
    r ++ [("timestamp", JsValue.num (t : ℚ))]

/-- Mutable state of a `StreamProcessor`: the record buffer and the
re-entrancy flag `this.processing`. -/
structure PState where
  buffer : List CSVRecord
  processing : Bool
deriving DecidableEq, Repr

/-- `StreamProcessor.processBatch`, one flush cycle executed to completion:
if a flush is in flight, defer (re-entrancy guard); otherwise splice up to
`batchSize` records off the front, split them into sub-chunks of size
`Math.ceil(batch.length / 4)`, stamp every record and emit the combined
batch (sub-chunks are pushed in order, so the combined output is the
stamped batch in order).  Returns the new state, the emitted batches, and
the buffer lengths observed at the moment a flush cycle began. -/
def processBatch (b : Nat) (t : Int) (s : PState) :
    PState × List (List CSVRecord) × List Nat :=
  if s.processing then (s, [], [])
  else
    let batch := s.buffer.take b
    let buf2 := s.buffer.drop b
    if batch.isEmpty then (⟨buf2, false⟩, [], [s.buffer.length])
    else
      let chunks := chunkArray batch (ceil4 batch.length)
      (⟨buf2, false⟩,
       [(chunks.map (fun c => c.map (fun r => stampRecord r t))).flatten],
       [s.buffer.length])

/-- `StreamProcessor._transform` under the serialized stream discipline
(Node invokes `_transform` again only after the previous callback, and
`processBatch` calls back only when its flush cycle completed, so
`this.processing` is `false` whenever a chunk arrives): push the chunk,
then flush when the buffer reaches `batchSize` or the high-water mark
(1000). -/
def transformStep (b : Nat) (t : Int) (buf : List CSVRecord) (r : CSVRecord) :
    List CSVRecord × List (List CSVRecord) × List Nat :=
  let buf2 := buf ++ [r]
  if b ≤ buf2.length ∨ 1000 ≤ buf2.length then
    let res := processBatch b t ⟨buf2, false⟩
    (res.1.buffer, res.2.1, res.2.2)
  else (buf2, [], [])

/-- Feed a whole input sequence through `_transform`, accumulating the
emitted batches and the flush-begin buffer lengths. -/
def runTransform (b : Nat) (t : Int) (input : List CSVRecord) :
    List CSVRecord × List (List CSVRecord) × List Nat :=
  input.foldl
    (fun acc r =>
      let stp := transformStep b t acc.1 r
      (stp.1, acc.2.1 ++ stp.2.1, acc.2.2 ++ stp.2.2))
    ([], [], [])

/-- `StreamProcessor._flush`: repeat flush cycles until the buffer is
empty.  With `batchSize = 0` the source recurses forever (each cycle
splices nothing); that unreachable case (options are positive) is mapped
to no emission. -/
def flushLoop (b : Nat) (t : Int) (buf : List CSVRecord) :
    List (List CSVRecord) × List Nat :=
  match buf, b with
  | [], _ => ([], [])
  | _ :: _, 0 => ([], [])
  | x :: xs, b' + 1 =>
    let res := processBatch (b' + 1) t ⟨x :: xs, false⟩
    let rest := flushLoop (b' + 1) t ((x :: xs).drop (b' + 1))
    (res.2.1 ++ rest.1, res.2.2 ++ rest.2)
termination_by buf.length
decreasing_by simp [List.length_drop]; omega

/-- The whole lifecycle of one `StreamProcessor`: transform every input
record, then `_flush` to end-of-input.  Returns all emitted batches and
all flush-begin buffer lengths. -/
def runStream (b : Nat) (t : Int) (input : List CSVRecord) :
    List (List CSVRecord) × List Nat :=
  let s := runTransform b t input
  let f := flushLoop b t s.1
  (s.2.1 ++ f.1, s.2.2 ++ f.2)

/-- One observable event at a `StreamProcessor` under arbitrary
interleaving of `_transform` calls with an in-flight flush: either a
record arrives (`accept`, the body of `_transform`: push, then
`processBatch`, whose re-entrancy guard defers the flush when one is in
flight), or an in-flight flush completes (`finishFlush`, the `finally`
block that resets `this.processing`). -/
inductive BatchEvent where
  | accept (r : CSVRecord)
  | finishFlush
deriving DecidableEq, Repr

/-- Step of the interleaving model.  Returns the new state and the buffer
length observed if a flush cycle began (splice plus `processing := true`). -/
def batcherEventStep (b : Nat) (s : PState) : BatchEvent → PState × List Nat
  | .accept r =>
    let buf2 := s.buffer ++ [r]
    if b ≤ buf2.length ∨ 1000 ≤ buf2.length then
      if s.processing then (⟨buf2, true⟩, [])
      else (⟨buf2.drop b, true⟩, [buf2.length])
    else (⟨buf2, s.processing⟩, [])
  | .finishFlush => (⟨s.buffer, false⟩, [])

/-- Run a sequence of interleaved events from an idle, empty batcher,
collecting every flush-begin buffer length. -/
def runBatcherEvents (b : Nat) (evts : List BatchEvent) : PState × List Nat :=
  evts.foldl
    (fun acc e =>
      let stp := batcherEventStep b acc.1 e
      (stp.1, acc.2 ++ stp.2))
    (⟨[], false⟩, [])

/-! ## WindowAggregator (`src/aggregators/WindowAggregator.ts`) -/

/-- Mutable state of a `WindowAggregator`: the window map and the
`lastCleanup` timestamp.  The JS `Map<number, Window>` preserves insertion
order and is modelled as an insertion-ordered association list from a
window's `startTime` to its record list. -/
structure AggState where
  windows : List (Int × List CSVRecord)
  lastCleanup : Int
deriving DecidableEq, Repr

/-- `Math.ceil(a / b)` on integers: exact for positive `b`, which is how
the source uses it (`Math.ceil(this.windowSize / this.slidingInterval)`
with positive options). -/
def ceilDivInt (a b : Int) : Int := -((-a) / b)

/-- `this.maxWindows = Math.ceil(windowSize / slidingInterval) + 1` from
the `WindowAggregator` constructor. -/
def maxWindows (W s : Int) : Nat := (ceilDivInt W s + 1).toNat

/-- The records stored under window key `k`, `[]` when the window is
absent. -/
def lookupRecs (m : List (Int × List CSVRecord)) (k : Int) : List CSVRecord :=
  match m.find? (fun kv => kv.1 == k) with
  | some kv => kv.2
  | none => []

/-- The window keys present in a window map. -/
def keysOf (m : List (Int × List CSVRecord)) : List Int := m.map Prod.fst

/-- `WindowAggregator.addToWindow`: append a clone of `record` to the
window keyed `windowTime`, creating the window if absent.  A JS
`Map.set` of a fresh key appends it in iteration order; the clone
`{...record}` is the same value in this functional model. -/
def addToWindow (windowTime : Int) (record : CSVRecord)
    (m : List (Int × List CSVRecord)) : List (Int × List CSVRecord) :=
  if (m.find? (fun kv => kv.1 == windowTime)).isSome then
    m.map (fun kv => if kv.1 == windowTime then (kv.1, kv.2 ++ [record]) else kv)
  else
    m ++ [(windowTime, [record])]

/-- `WindowAggregator.cleanupWindows`: delete every window whose
`startTime < now - windowSize` and set `lastCleanup := now`. -/
def cleanupWindows (W : Int) (st : AggState) (now : Int) : AggState :=
  ⟨st.windows.filter (fun kv => ! decide (kv.1 < now - W)), now⟩

/-- The `for (let i = 0; i < this.maxWindows; i++)` loop body of
`WindowAggregator.addRecord`, over an explicit list of loop indices:
`windowTime = windowStart - i * slidingInterval`, added to when
`now - windowTime <= windowSize`.  `windowStart` is
`Math.floor(now / slidingInterval) * slidingInterval`; for a positive
divisor, JS floor division is Euclidean division, Lean's `/` on `Int`. -/
def addLoop (W s now : Int) (record : CSVRecord) (idxs : List Nat)
    (m : List (Int × List CSVRecord)) : List (Int × List CSVRecord) :=
  idxs.foldl
    (fun m i =>
      let windowTime := (now / s) * s - (i : Int) * s
      if now - windowTime ≤ W then addToWindow windowTime record m else m)
    m

/-- `WindowAggregator.addRecord`: replicate the record into every window
in range, then run a cleanup pass when more than `windowSize` elapsed
since the last one (`now - this.lastCleanup > this.windowSize`). -/
def addRecord (W s : Int) (st : AggState) (record : CSVRecord) (now : Int) : AggState :=
  let m := addLoop W s now record (List.range (maxWindows W s)) st.windows
  let st2 : AggState := ⟨m, st.lastCleanup⟩
  if W < now - st.lastCleanup then cleanupWindows W st2 now else st2

/-- A fresh aggregator (constructor: empty map, `lastCleanup = Date.now()`
at construction time `t0`) fed a sequence of `addRecord` calls, each with
its record and its arrival time. -/
def runAggAdds (W s t0 : Int) (adds : List (CSVRecord × Int)) : AggState :=
  adds.foldl (fun st rc => addRecord W s st rc.1 rc.2) ⟨[], t0⟩

/-! ## Grouping and per-group statistics (`WindowAggregator`) -/

/-- The numeric value of an all-digit, non-empty character run, `none`
otherwise. -/
def digitsToNat? (cs : List Char) : Option Nat :=
  if ¬ cs.isEmpty ∧ cs.all Char.isDigit then
    some (cs.foldl (fun a c => a * 10 + (c.toNat - 48)) 0)
  else none

/-- JS `Number(string)` conversion for decimal string literals:
surrounding whitespace is trimmed, the empty (or all-whitespace) string
converts to `0`, an optional sign followed by decimal digits (with an
optional fractional part around one `.`) converts to the corresponding
rational, anything else is `NaN` (`none`).  Exponent and hex forms are
omitted; no theorem below depends on them. -/
def parseJsNumber (s : String) : Option ℚ :=
  let cs := ((s.data.dropWhile Char.isWhitespace).reverse.dropWhile Char.isWhitespace).reverse
  if cs.isEmpty then some 0
  else
    let core := if cs.head? = some '-' ∨ cs.head? = some '+' then cs.drop 1 else cs
    let sign : ℚ := if cs.head? = some '-' then -1 else 1
    match core.splitOn '.' with
    | [a] => (digitsToNat? a).map (fun n => sign * (n : ℚ))
    | [a, b] =>
      if a.isEmpty then (digitsToNat? b).map (fun n => sign * (n : ℚ) / ((10 : ℚ) ^ b.length))
      else if b.isEmpty then (digitsToNat? a).map (fun n => sign * (n : ℚ))
      else
        match digitsToNat? a, digitsToNat? b with
        | some x, some y => some (sign * ((x : ℚ) + (y : ℚ) / ((10 : ℚ) ^ b.length)))
        | _, _ => none
    | _ => none

/-- `Number(r[field])` as used in `calculateGroupAggregations`:
`undefined` (missing field) gives `NaN`, a number converts to itself, a
string is parsed.  `none` stands for `NaN`. -/
def jsToNumber : Option JsValue → Option ℚ
  | none => none
  | some (JsValue.num q) => some q
  | some (JsValue.str s) => parseJsNumber s

/-- `r[field]` on a record. -/
def lookupField (r : CSVRecord) (f : String) : Option JsValue :=
  (r.find? (fun kv => kv.1 == f)).map Prod.snd

/-- `WindowAggregator.getNumericFields`: the keys other than `timestamp`
whose value has JS type `number` in the given record. -/
def getNumericFields (r : CSVRecord) : List String :=
  (r.filter (fun kv =>
      !(kv.1 == "timestamp") &&
      (match kv.2 with | JsValue.num _ => true | JsValue.str _ => false))).map Prod.fst

/-- `records.map(r => Number(r[field])).filter(v => !isNaN(v))` from
`calculateGroupAggregations`: the occurrences of `field` whose `Number()`
coercion is not `NaN`. -/
def fieldValues (records : List CSVRecord) (field : String) : List ℚ :=
  (records.map (fun r => jsToNumber (lookupField r field))).filterMap id

/-- `Math.max(...values)` on a non-empty list (`0` on `[]`, unreachable:
the source guards with `values.length > 0`). -/
def listMax : List ℚ → ℚ
  | [] => 0
  | x :: xs => xs.foldl max x

/-- `Math.min(...values)` on a non-empty list. -/
def listMin : List ℚ → ℚ
  | [] => 0
  | x :: xs => xs.foldl min x

/-- Discriminator for the four per-field statistics.  The source builds
JS object keys by appending `_sum`, `_avg`, `_max`, `_min` to the field
name; the four suffixes have equal length and differ pairwise, so
distinct (field, statistic) pairs always yield distinct JS string keys
and the structured key is a faithful rendering. -/
inductive StatKind where
  | sum
  | avg
  | max
  | min
deriving DecidableEq, Repr

/-- A key of the per-group statistics object: `count`, or
`` `${field}_${stat}` ``. -/
inductive AggKey where
  | count
  | stat (field : String) (sk : StatKind)
deriving DecidableEq, Repr

/-- Property lookup on the per-group statistics object. -/
def lookupAgg (res : List (AggKey × ℚ)) (k : AggKey) : Option ℚ :=
  (res.find? (fun kv => kv.1 == k)).map Prod.snd

/-- The four statistics entries one field contributes in
`calculateGroupAggregations` — `sum` is `values.reduce((a,b)=>a+b, 0)`,
`avg` is `sum / values.length`, `max`/`min` are `Math.max`/`Math.min`
over the spread values — guarded by `values.length > 0` (nothing is
assigned when every occurrence coerced to `NaN`). -/
def statBlock (records : List CSVRecord) (field : String) : List (AggKey × ℚ) :=
  let values := fieldValues records field
  if 0 < values.length then
    [(AggKey.stat field StatKind.sum, values.foldl (· + ·) 0),
     (AggKey.stat field StatKind.avg, values.foldl (· + ·) 0 / (values.length : ℚ)),
     (AggKey.stat field StatKind.max, listMax values),
     (AggKey.stat field StatKind.min, listMin values)]
  else []

/-- `WindowAggregator.calculateGroupAggregations`: `count` is the group
size; then, iterating over the fields that are numeric in the group's
**first** record, each field's statistics entries are assigned in
order. -/
def calculateGroupAggregations (records : List CSVRecord) : List (AggKey × ℚ) :=
  (AggKey.count, (records.length : ℚ)) ::
  (getNumericFields (records.headD [])).foldl
    (fun acc field => acc ++ statBlock records field) []

/-- JS template-literal rendering of a record value inside
`WindowAggregator.getGroupKey` (`` `${key}:${value}` ``).  A string
renders as itself, an integer as its decimal form, exactly as JS does; a
non-integer rational uses a stand-in rendering (every theorem below
applies this to integers and strings only). -/
def jsValueToString : JsValue → String
  | JsValue.str s => s
  | JsValue.num q => if q.den = 1 then toString q.num else toString q.num ++ "/" ++ toString q.den

/-- `WindowAggregator.getGroupKey`: join `key:value` over all
non-`timestamp` fields, in field order, separated by `|`. -/
def getGroupKey (r : CSVRecord) : String :=
  String.intercalate "|"
    ((r.filter (fun kv => !(kv.1 == "timestamp"))).map
      (fun kv => kv.1 ++ ":" ++ jsValueToString kv.2))

/-- The grouping pass of `WindowAggregator.calculateAggregations`: a JS
`Map<string, CSVRecord[]>` built in insertion order, each record appended
to its group. -/
def groupRecords (records : List CSVRecord) : List (String × List CSVRecord) :=
  records.foldl
    (fun gs r =>
      let k := getGroupKey r
      if (gs.find? (fun g => g.1 == k)).isSome then
        gs.map (fun g => if g.1 == k then (g.1, g.2 ++ [r]) else g)
      else gs ++ [(k, [r])])
    []

/-- `WindowAggregator.calculateAggregations`: per-group statistics for
every group, in group insertion order. -/
def calculateAggregations (records : List CSVRecord) :
    List (String × List (AggKey × ℚ)) :=
  (groupRecords records).map (fun g => (g.1, calculateGroupAggregations g.2))

/-- `AggregationResult` (`src/types/index.ts`) as emitted by
`WindowAggregator.processWindow`. -/
structure AggregationResult where
  timestamp : Int
  count : Nat
  data : List (String × List (AggKey × ℚ))
deriving DecidableEq, Repr

/-- `WindowAggregator.processWindow`: early return (no emission) on an
empty window, otherwise emit the window's aggregation result. -/
def processWindow (startTime : Int) (records : List CSVRecord) :
    Option AggregationResult :=
  if records.isEmpty then none
  else some ⟨startTime, records.length, calculateAggregations records⟩

/-! ## DataEngine (`src/DataEngine.ts`) -/

/-- Terminal event of one source's decode stream: exactly one of
end-of-input or a decode error. -/
inductive SourceTerminal where
  | endOfInput
  | decodeError (msg : String)
deriving DecidableEq, Repr

/-- Settlement of the promise returned by `DataEngine.processFile`. -/
inductive Completion where
  | resolved
  | rejected (msg : String)
deriving DecidableEq, Repr

/-- How `DataEngine.processFile` settles, as a function of the decoded
records and the stream's terminal event: each `data` event only feeds
`aggregator.addRecord`; the `end` handler resolves unconditionally
(`stream.on('end', () => resolve())`) — the number of records decoded,
zero included, never influences settlement — and a stream, parser or
validator `error` event rejects. -/
def processFileOutcome (records : List CSVRecord) (t : SourceTerminal) : Completion :=
  match records, t with
  | _, SourceTerminal.endOfInput => Completion.resolved
  | _, SourceTerminal.decodeError m => Completion.rejected m

/-- Construction-time state of a `DataEngine`: the shared aggregator's
state, the processor's state and the accumulated results log. -/
structure EngineState where
  aggregator : AggState
  processor : PState
  results : List AggregationResult
deriving DecidableEq, Repr

/-- The `WindowAggregator` constructor body: stores the options, creates
an empty window map, sets `lastCleanup := Date.now()` and starts the
timer.  It contains no validation of the options and no branch that
throws for any numeric input. -/
def windowAggregatorInit (o : ProcessingOptions) (now : Int) : Except String AggState :=
  Except.ok ⟨[], now⟩

/-- The `StreamProcessor` constructor body: empty buffer,
`processing = false`; no validation of the options, no throwing branch. -/
def streamProcessorInit (o : ProcessingOptions) : Except String PState :=
  Except.ok ⟨[], false⟩

/-- The `DataEngine` constructor: builds the processor and the aggregator
and an empty results log.  None of the three constructors validates
`ProcessingOptions`. -/
def dataEngineInit (o : ProcessingOptions) (now : Int) : Except String EngineState := do
  let agg ← windowAggregatorInit o now
  let proc ← streamProcessorInit o
  Except.ok ⟨agg, proc, []⟩

/-- Operations touching `DataEngine.results` during an Engine's lifetime:
`handleAggregationResult` (subscribed to the aggregator's `aggregation`
event) pushes one result; `getResults` returns the spread copy
`[...this.results]` and does not mutate; `cleanup` assigns a fresh empty
array. -/
inductive EngineOp where
  | emitResult (r : AggregationResult)
  | getResults
  | cleanup
deriving DecidableEq, Repr

/-- Effect of one operation on the `results` log. -/
def engineOpStep (log : List AggregationResult) : EngineOp → List AggregationResult
  | EngineOp.emitResult r => log ++ [r]
  | EngineOp.getResults => log
  | EngineOp.cleanup => []

/-- The `results` log after a sequence of operations. -/
def runEngineOps (log : List AggregationResult) (ops : List EngineOp) :
    List AggregationResult :=
  ops.foldl engineOpStep log

/-- The result emitted by an operation, if any. -/
def emittedResult : EngineOp → Option AggregationResult
  | EngineOp.emitResult r => some r
  | _ => none

/-! ### Helper lemmas about `chunkArray` and `processBatch` -/

theorem chunkArray_flatten {α : Type _} (l : List α) (n : Nat) :
    0 < n → (chunkArray l n).flatten = l := by
  induction l, n using chunkArray.induct with
  | case1 m => intro _; simp [chunkArray]
  | case2 h tl => intro h0; omega
  | case3 x xs n ih =>
    intro _
    simp only [chunkArray, List.flatten_cons]
    rw [ih (Nat.succ_pos n), List.take_append_drop]

theorem chunkArray_count_le {α : Type _} (l : List α) (n k : Nat) :
    0 < n → l.length ≤ k * n → (chunkArray l n).length ≤ k := by
  induction l, n using chunkArray.induct generalizing k with
  | case1 m => intro _ _; simp [chunkArray]
  | case2 h tl => intro h0; omega
  | case3 x xs n ih =>
    intro hn hk
    match k with
    | 0 => simp at hk
    | k + 1 =>
      simp only [chunkArray, List.length_cons]
      have hdrop : ((x :: xs).drop (n + 1)).length ≤ k * (n + 1) := by
        have h1 : (k + 1) * (n + 1) = k * (n + 1) + (n + 1) := by ring
        simp only [Nat.succ_eq_add_one] at hk
        simp only [List.length_drop]
        omega
      have := ih k hn hdrop
      omega

theorem chunkArray_mem_spec {α : Type _} (l : List α) (n : Nat) (c : List α) :
    0 < n → c ∈ chunkArray l n → c ≠ [] ∧ c.length ≤ n := by
  induction l, n using chunkArray.induct with
  | case1 m => intro _ hc; simp [chunkArray] at hc
  | case2 h tl => intro h0; omega
  | case3 x xs n ih =>
    intro hn hc
    simp only [chunkArray, List.mem_cons] at hc
    rcases hc with hc | hc
    · subst hc
      constructor
      · simp [List.take_cons]
      · simp [List.length_take]
    · exact ih hn hc

theorem le_four_mul_ceil4 (L : Nat) : L ≤ 4 * ceil4 L := by
  have h := Nat.div_add_mod (L + 3) 4
  have h2 : (L + 3) % 4 < 4 := Nat.mod_lt _ (by omega)
  unfold ceil4
  omega

theorem ceil4_pos (L : Nat) (h : 0 < L) : 0 < ceil4 L := by
  have := le_four_mul_ceil4 L
  omega

/-- What one non-deferred, non-empty flush cycle does, in closed form:
the buffer loses its first `b` records and the stamped batch (the spliced
records in order) is emitted. -/
theorem processBatch_emits (b : Nat) (t : Int) (s : PState)
    (hp : s.processing = false) (hne : s.buffer.take b ≠ []) :
    processBatch b t s =
      (⟨s.buffer.drop b, false⟩,
       [(s.buffer.take b).map (fun r => stampRecord r t)],
       [s.buffer.length]) := by
  have hlen : 0 < (s.buffer.take b).length := List.length_pos.mpr hne
  have hceil : 0 < ceil4 (s.buffer.take b).length := ceil4_pos _ hlen
  have hflat : (chunkArray (s.buffer.take b) (ceil4 (s.buffer.take b).length)).flatten
      = s.buffer.take b := chunkArray_flatten _ _ hceil
  simp only [processBatch, hp, Bool.false_eq_true, if_false]
  rw [if_neg (by simpa [List.isEmpty_iff] using hne)]
  simp only [← List.map_flatten, hflat]

/-! ### Per-step and whole-run properties of the batcher -/

/-- Effect of one serialized `_transform` step on the buffer length, the
emitted batch lengths and the flush-begin lengths. -/
theorem transformStep_spec (b : Nat) (t : Int) (buf : List CSVRecord) (r : CSVRecord)
    (hb : 0 < b) (hlt : buf.length < min b 1000) :
    (transformStep b t buf r).1.length < min b 1000 ∧
    (((transformStep b t buf r).2.1.map List.length).sum + (transformStep b t buf r).1.length
      = buf.length + 1) ∧
    (∀ batch ∈ (transformStep b t buf r).2.1, batch.length ≤ b) ∧
    (∀ v ∈ (transformStep b t buf r).2.2, v ≤ b) := by
  unfold transformStep
  by_cases hcond : b ≤ (buf ++ [r]).length ∨ 1000 ≤ (buf ++ [r]).length
  · rw [if_pos hcond]
    have htake : (buf ++ [r]).take b ≠ [] := by
      have : (buf ++ [r]).length = buf.length + 1 := by simp
      intro hnil
      have := congrArg List.length hnil
      simp [List.length_take] at this
      omega
    rw [processBatch_emits b t ⟨buf ++ [r], false⟩ rfl htake]
    refine ⟨?_, ?_, ?_, ?_⟩
    · simp only [List.length_drop, List.length_append, List.length_cons, List.length_nil]
      omega
    · simp only [List.map_cons, List.map_nil, List.sum_cons, List.sum_nil,
        List.length_map, List.length_take, List.length_drop, List.length_append,
        List.length_cons, List.length_nil]
      omega
    · intro batch hm
      simp only [List.mem_singleton] at hm
      subst hm
      simp only [List.length_map, List.length_take]
      omega
    · intro v hv
      simp only [List.mem_singleton] at hv
      subst hv
      simp only [List.length_append, List.length_cons, List.length_nil]
      omega
  · rw [if_neg hcond]
    push_neg at hcond
    refine ⟨?_, ?_, ?_, ?_⟩
    · simp only [List.length_append, List.length_cons, List.length_nil] at hcond ⊢
      omega
    · simp
    · intro batch hm; simp at hm
    · intro v hv; simp at hv

/-- Whole-input invariant of the serialized transform phase: the residual
buffer stays below `min batchSize 1000`, batch lengths plus the residual
account for every input record, every batch is at most `batchSize` long,
and every flush-begin length is at most `batchSize`. -/
theorem runTransform_spec (b : Nat) (t : Int) (input : List CSVRecord) (hb : 0 < b) :
    (runTransform b t input).1.length < min b 1000 ∧
    (((runTransform b t input).2.1.map List.length).sum + (runTransform b t input).1.length
      = input.length) ∧
    (∀ batch ∈ (runTransform b t input).2.1, batch.length ≤ b) ∧
    (∀ v ∈ (runTransform b t input).2.2, v ≤ b) := by
  induction input using List.reverseRecOn with
  | nil =>
    refine ⟨by simp [runTransform]; omega, by simp [runTransform], ?_, ?_⟩
    · intro batch hm; simp [runTransform] at hm
    · intro v hv; simp [runTransform] at hv
  | append_singleton l a ih =>
    obtain ⟨ih1, ih2, ih3, ih4⟩ := ih
    have hrw : runTransform b t (l ++ [a]) =
        (let acc := runTransform b t l
         let stp := transformStep b t acc.1 a
         (stp.1, acc.2.1 ++ stp.2.1, acc.2.2 ++ stp.2.2)) := by
      unfold runTransform
      rw [List.foldl_append]
      simp
    obtain ⟨s1, s2, s3, s4⟩ := transformStep_spec b t (runTransform b t l).1 a hb ih1
    rw [hrw]
    refine ⟨s1, ?_, ?_, ?_⟩
    · simp only [List.map_append, List.sum_append, List.length_append,
        List.length_cons, List.length_nil]
      omega
    · intro batch hm
      simp only [List.mem_append] at hm
      rcases hm with hm | hm
      · exact ih3 batch hm
      · exact s3 batch hm
    · intro v hv
      simp only [List.mem_append] at hv
      rcases hv with hv | hv
      · exact ih4 v hv
      · exact s4 v hv

/-- The flush-until-empty loop drains the whole remaining buffer: emitted
batch lengths sum to the buffer length, every batch is at most
`batchSize` long, and every flush-begin length is at most the initial
buffer length. -/
theorem flushLoop_spec (b : Nat) (t : Int) (buf : List CSVRecord) :
    0 < b →
    (((flushLoop b t buf).1.map List.length).sum = buf.length) ∧
    (∀ batch ∈ (flushLoop b t buf).1, batch.length ≤ b) ∧
    (∀ v ∈ (flushLoop b t buf).2, v ≤ buf.length) := by
  induction b, t, buf using flushLoop.induct with
  | case1 b t =>
    intro hb
    refine ⟨by simp [flushLoop], ?_, ?_⟩
    · intro batch hm; simp [flushLoop] at hm
    · intro v hv; simp [flushLoop] at hv
  | case2 t x xs =>
    intro hb
    omega
  | case3 t x xs b' ih =>
    intro hb
    obtain ⟨ih1, ih2, ih3⟩ := ih (by omega)
    have htake : (x :: xs).take (b' + 1) ≠ [] := by simp [List.take_cons]
    have hrw : flushLoop (b' + 1) t (x :: xs) =
        (let res := processBatch (b' + 1) t ⟨x :: xs, false⟩
         let rest := flushLoop (b' + 1) t ((x :: xs).drop (b' + 1))
         (res.2.1 ++ rest.1, res.2.2 ++ rest.2)) := by
      rw [flushLoop]
    rw [hrw, processBatch_emits (b' + 1) t ⟨x :: xs, false⟩ rfl htake]
    refine ⟨?_, ?_, ?_⟩
    · simp only [List.map_append, List.sum_append, List.map_cons, List.map_nil,
        List.sum_cons, List.sum_nil, List.length_map, List.length_take]
      have hd : ((x :: xs).drop (b' + 1)).length = (x :: xs).length - (b' + 1) := by
        simp [List.length_drop]
      simp only [List.length_cons] at *
      omega
    · intro batch hm
      simp only [List.mem_append, List.mem_singleton] at hm
      rcases hm with hm | hm
      · subst hm
        simp only [List.length_map, List.length_take]
        omega
      · exact ih2 batch hm
    · intro v hv
      simp only [List.mem_append, List.mem_singleton] at hv
      rcases hv with hv | hv
      · omega
      · have := ih3 v hv
        simp only [List.length_drop] at this
        omega

/-! ### Claim C4 -/

/-- C4 (amended): a non-deferred flush cycle removes up to `batchSize`
records from the front of the buffer and partitions them into consecutive
sub-chunks of size `Math.ceil(batchLength / 4)` (the last sub-chunk
possibly smaller), which yields at most 4 sub-chunks — possibly fewer —
whose concatenation is the batch in order; each record is stamped and the
combined stamped batch is emitted once. -/
theorem processBatch_chunking (b : Nat) (t : Int) (s : PState)
    (hb : 0 < b) (hp : s.processing = false) (hne : s.buffer ≠ []) :
    (processBatch b t s).1.buffer = s.buffer.drop b ∧
    (processBatch b t s).2.1 = [(s.buffer.take b).map (fun r => stampRecord r t)] ∧
    (chunkArray (s.buffer.take b) (ceil4 (s.buffer.take b).length)).flatten = s.buffer.take b ∧
    (chunkArray (s.buffer.take b) (ceil4 (s.buffer.take b).length)).length ≤ 4 ∧
    ∀ c ∈ chunkArray (s.buffer.take b) (ceil4 (s.buffer.take b).length),
      c ≠ [] ∧ c.length ≤ ceil4 (s.buffer.take b).length := by
  have htake : s.buffer.take b ≠ [] := by
    intro hnil
    have := congrArg List.length hnil
    simp only [List.length_take, List.length_nil] at this
    have : s.buffer.length = 0 := by omega
    exact hne (List.length_eq_zero.mp this)
  have hlen : 0 < (s.buffer.take b).length := List.length_pos.mpr htake
  have hceil : 0 < ceil4 (s.buffer.take b).length := ceil4_pos _ hlen
  rw [processBatch_emits b t s hp htake]
  refine ⟨rfl, rfl, chunkArray_flatten _ _ hceil, ?_, ?_⟩
  · exact chunkArray_count_le _ _ 4 hceil (le_four_mul_ceil4 _)
  · intro c hc
    exact chunkArray_mem_spec _ _ c hceil hc

/-- C4 counterexample: a batch of 5 records is split with sub-chunk size
`Math.ceil(5 / 4) = 2`, producing 3 sub-chunks of sizes 2, 2, 1 — neither
exactly 4 sub-chunks nor sizes as equal as the remainder allows
(5 into 4 parts would be 2, 1, 1, 1). -/
theorem chunkArray_five_records_cex :
    ((chunkArray [[("id", JsValue.num 1)], [("id", JsValue.num 2)], [("id", JsValue.num 3)],
        [("id", JsValue.num 4)], [("id", JsValue.num 5)]] (ceil4 5)).map List.length
      = [2, 2, 1]) ∧
    ¬ ((chunkArray [[("id", JsValue.num 1)], [("id", JsValue.num 2)], [("id", JsValue.num 3)],
        [("id", JsValue.num 4)], [("id", JsValue.num 5)]] (ceil4 5)).length = 4) := by
  have h : ceil4 5 = 2 := by norm_num [ceil4]
  rw [h]
  constructor
  · simp [chunkArray]
  · simp [chunkArray]

/-- Witness for `processBatch_chunking` at a concrete 5-record buffer with
`batchSize = 5`. -/
theorem processBatch_chunking_witness :
    (0 : Nat) < 5 ∧
    (processBatch 5 0 ⟨[[("id", JsValue.num 1)], [("id", JsValue.num 2)],
        [("id", JsValue.num 3)], [("id", JsValue.num 4)], [("id", JsValue.num 5)]],
        false⟩).2.1
      = [([[("id", JsValue.num 1)], [("id", JsValue.num 2)], [("id", JsValue.num 3)],
          [("id", JsValue.num 4)], [("id", JsValue.num 5)]].take 5).map
            (fun r => stampRecord r 0)] :=
  ⟨by decide,
   (processBatch_chunking 5 0
      ⟨[[("id", JsValue.num 1)], [("id", JsValue.num 2)], [("id", JsValue.num 3)],
        [("id", JsValue.num 4)], [("id", JsValue.num 5)]], false⟩
      (by decide) rfl (by decide)).2.1⟩

/-! ### Claim C5 -/

/-- C5: for every finite input sequence and positive `batchSize`, pushing
the whole sequence through the batcher (`_transform` on every record,
then `_flush` until the buffer is empty — a loop the model proves
terminating by giving it as a total function) emits batches whose lengths
sum exactly to the input length, every emitted batch having length at
most `batchSize`. -/
theorem runStream_batch_accounting (b : Nat) (t : Int) (input : List CSVRecord)
    (hb : 0 < b) :
    (((runStream b t input).1.map List.length).sum = input.length) ∧
    (∀ batch ∈ (runStream b t input).1, batch.length ≤ b) := by
  obtain ⟨h1, h2, h3, h4⟩ := runTransform_spec b t input hb
  obtain ⟨g1, g2, g3⟩ := flushLoop_spec b t (runTransform b t input).1 hb
  constructor
  · show (((runTransform b t input).2.1 ++ (flushLoop b t (runTransform b t input).1).1).map
        List.length).sum = input.length
    rw [List.map_append, List.sum_append]
    omega
  · intro batch hm
    have hm' : batch ∈ (runTransform b t input).2.1 ++
        (flushLoop b t (runTransform b t input).1).1 := hm
    rw [List.mem_append] at hm'
    rcases hm' with hm' | hm'
    · exact h3 batch hm'
    · exact g2 batch hm'

/-- Witness for `runStream_batch_accounting`: three records with
`batchSize = 2` yield batches of sizes summing to 3, each at most 2. -/
theorem runStream_batch_accounting_witness :
    (0 : Nat) < 2 ∧
    (((runStream 2 0 [[("id", JsValue.num 1)], [("id", JsValue.num 2)],
        [("id", JsValue.num 3)]]).1.map List.length).sum = 3) :=
  ⟨by decide,
   (runStream_batch_accounting 2 0 [[("id", JsValue.num 1)], [("id", JsValue.num 2)],
      [("id", JsValue.num 3)]] (by decide)).1⟩

/-! ### Claim C6 -/

/-- C6 counterexample: with `batchSize = 1`, two records accepted while a
flush is in flight are both deferred by the re-entrancy guard; after the
flush finishes, the next accept begins a flush cycle with 3 buffered
records — exceeding `batchSize + 1 = 2`.  The claimed bound fails under
this interleaving of accepts with an in-flight flush. -/
theorem batcher_interleaved_flush_begin_cex :
    3 ∈ (runBatcherEvents 1 [BatchEvent.accept [("id", JsValue.num 1)],
        BatchEvent.accept [("id", JsValue.num 2)],
        BatchEvent.accept [("id", JsValue.num 3)],
        BatchEvent.finishFlush,
        BatchEvent.accept [("id", JsValue.num 4)]]).2 ∧
    ¬ ((3 : Nat) ≤ 1 + 1) := by
  constructor
  · decide
  · decide

/-- C6 (amended): under the serialized stream discipline — Node calls
`_transform` only after the previous callback, so no accept interleaves
an in-flight flush — the buffer length at the moment any flush cycle
begins never exceeds `batchSize` (a fortiori `batchSize + 1`); when
accepts do interleave an in-flight flush, each deferred accept buffers
one more record and the `batchSize + 1` bound fails
(`batcher_interleaved_flush_begin_cex`). -/
theorem serialized_flush_begin_bound (b : Nat) (t : Int) (input : List CSVRecord)
    (hb : 0 < b) : ∀ v ∈ (runStream b t input).2, v ≤ b + 1 := by
  obtain ⟨h1, h2, h3, h4⟩ := runTransform_spec b t input hb
  obtain ⟨g1, g2, g3⟩ := flushLoop_spec b t (runTransform b t input).1 hb
  intro v hv
  have hv' : v ∈ (runTransform b t input).2.2 ++
      (flushLoop b t (runTransform b t input).1).2 := hv
  rw [List.mem_append] at hv'
  rcases hv' with hv' | hv'
  · have := h4 v hv'
    omega
  · have := g3 v hv'
    omega

/-- Witness for `serialized_flush_begin_bound`: a serialized run with
`batchSize = 2` in which the flush-begin length 2 is indeed at most 3. -/
theorem serialized_flush_begin_bound_witness :
    (0 : Nat) < 2 ∧ (2 : Nat) ≤ 2 + 1 :=
  ⟨by decide,
   serialized_flush_begin_bound 2 0 [[("id", JsValue.num 1)], [("id", JsValue.num 2)],
      [("id", JsValue.num 3)]] (by decide) 2 (by decide)⟩

/-! ### Association-list lemmas for the window map -/

theorem lookupRecs_cons (a : Int × List CSVRecord) (m : List (Int × List CSVRecord))
    (k : Int) :
    lookupRecs (a :: m) k = if a.1 = k then a.2 else lookupRecs m k := by
  by_cases h : a.1 = k
  · simp [lookupRecs, List.find?_cons, h]
  · simp [lookupRecs, List.find?_cons, h]

theorem lookupRecs_append (m₁ m₂ : List (Int × List CSVRecord)) (k : Int) :
    lookupRecs (m₁ ++ m₂) k =
      if (m₁.find? (fun kv => kv.1 == k)).isSome then lookupRecs m₁ k
      else lookupRecs m₂ k := by
  unfold lookupRecs
  rw [List.find?_append]
  cases h : m₁.find? (fun kv => kv.1 == k) <;> simp [h]

theorem find?_isSome_iff_mem_keys (m : List (Int × List CSVRecord)) (k : Int) :
    (m.find? (fun kv => kv.1 == k)).isSome ↔ k ∈ keysOf m := by
  rw [List.find?_isSome]
  unfold keysOf
  simp only [List.mem_map, beq_iff_eq]

theorem lookupRecs_eq_nil_of_not_mem (m : List (Int × List CSVRecord)) (k : Int)
    (h : k ∉ keysOf m) : lookupRecs m k = [] := by
  unfold lookupRecs
  cases hf : m.find? (fun kv => kv.1 == k) with
  | none => rfl
  | some kv =>
    exact absurd ((find?_isSome_iff_mem_keys m k).mp (by simp [hf])) h

theorem lookupRecs_map_update_self (k : Int) (r : CSVRecord)
    (m : List (Int × List CSVRecord))
    (hk : (m.find? (fun kv => kv.1 == k)).isSome) :
    lookupRecs (m.map fun kv => if kv.1 == k then (kv.1, kv.2 ++ [r]) else kv) k
      = lookupRecs m k ++ [r] := by
  induction m with
  | nil => simp at hk
  | cons a m ih =>
    by_cases hak : a.1 = k
    · rw [List.map_cons, lookupRecs_cons, lookupRecs_cons]
      simp [hak]
    · have hbeq : (a.1 == k) = false := by simp [hak]
      have hk' : (m.find? (fun kv => kv.1 == k)).isSome := by
        rwa [List.find?_cons, hbeq] at hk
      rw [List.map_cons, lookupRecs_cons, lookupRecs_cons]
      simp only [hbeq, if_false, Bool.false_eq_true]
      rw [if_neg hak, if_neg hak]
      exact ih hk'

theorem lookupRecs_map_update_other (k j : Int) (hne : j ≠ k) (r : CSVRecord)
    (m : List (Int × List CSVRecord)) :
    lookupRecs (m.map fun kv => if kv.1 == k then (kv.1, kv.2 ++ [r]) else kv) j
      = lookupRecs m j := by
  induction m with
  | nil => rfl
  | cons a m ih =>
    rw [List.map_cons, lookupRecs_cons, lookupRecs_cons]
    by_cases hak : a.1 = k
    · simp only [hak, beq_self_eq_true, if_true]
      rw [if_neg (fun h => hne h.symm), if_neg (fun h => hne h.symm)]
      exact ih
    · have hbeq : (a.1 == k) = false := by simp [hak]
      simp only [hbeq, Bool.false_eq_true, if_false]
      by_cases haj : a.1 = j
      · rw [if_pos haj, if_pos haj]
      · rw [if_neg haj, if_neg haj]
        exact ih

theorem lookupRecs_addToWindow_self (k : Int) (r : CSVRecord)
    (m : List (Int × List CSVRecord)) :
    lookupRecs (addToWindow k r m) k = lookupRecs m k ++ [r] := by
  unfold addToWindow
  by_cases hf : (m.find? (fun kv => kv.1 == k)).isSome
  · rw [if_pos hf]
    exact lookupRecs_map_update_self k r m hf
  · rw [if_neg hf]
    rw [lookupRecs_append, if_neg hf]
    have hnm : k ∉ keysOf m := fun hmem =>
      hf ((find?_isSome_iff_mem_keys m k).mpr hmem)
    rw [lookupRecs_eq_nil_of_not_mem m k hnm]
    simp [lookupRecs, List.find?_cons]

theorem lookupRecs_addToWindow_other (k j : Int) (hne : j ≠ k) (r : CSVRecord)
    (m : List (Int × List CSVRecord)) :
    lookupRecs (addToWindow k r m) j = lookupRecs m j := by
  unfold addToWindow
  by_cases hf : (m.find? (fun kv => kv.1 == k)).isSome
  · rw [if_pos hf]
    exact lookupRecs_map_update_other k j hne r m
  · rw [if_neg hf]
    rw [lookupRecs_append]
    by_cases hj : (m.find? (fun kv => kv.1 == j)).isSome
    · rw [if_pos hj]
    · rw [if_neg hj]
      have hnm : j ∉ keysOf m := fun hmem =>
        hj ((find?_isSome_iff_mem_keys m j).mpr hmem)
      rw [lookupRecs_eq_nil_of_not_mem m j hnm]
      have hkj : (k == j) = false := by
        simp only [beq_eq_false_iff_ne, ne_eq]
        exact fun h => hne h.symm
      simp [lookupRecs, List.find?_cons, hkj]

theorem keysOf_addToWindow (k : Int) (r : CSVRecord)
    (m : List (Int × List CSVRecord)) (j : Int) :
    j ∈ keysOf (addToWindow k r m) ↔ j ∈ keysOf m ∨ j = k := by
  unfold addToWindow
  by_cases hf : (m.find? (fun kv => kv.1 == k)).isSome
  · rw [if_pos hf]
    have hkeys : keysOf (m.map fun kv => if kv.1 == k then (kv.1, kv.2 ++ [r]) else kv)
        = keysOf m := by
      unfold keysOf
      rw [List.map_map]
      apply List.map_congr_left
      intro kv _
      by_cases hkv : kv.1 = k <;> simp [hkv]
    rw [hkeys]
    constructor
    · exact Or.inl
    · rintro (hj | rfl)
      · exact hj
      · exact (find?_isSome_iff_mem_keys m j).mp hf
  · rw [if_neg hf]
    unfold keysOf
    rw [List.map_append, List.mem_append]
    simp [keysOf]

theorem addToWindow_nonempty (k : Int) (r : CSVRecord)
    (m : List (Int × List CSVRecord)) (h : ∀ kv ∈ m, kv.2 ≠ []) :
    ∀ kv ∈ addToWindow k r m, kv.2 ≠ [] := by
  unfold addToWindow
  by_cases hf : (m.find? (fun kv => kv.1 == k)).isSome
  · rw [if_pos hf]
    intro kv hkv
    obtain ⟨kv0, hkv0, rfl⟩ := List.mem_map.mp hkv
    by_cases hk : kv0.1 = k
    · simp [hk]
    · rw [if_neg (by simpa using hk)]
      exact h kv0 hkv0
  · rw [if_neg hf]
    intro kv hkv
    rcases List.mem_append.mp hkv with hkv | hkv
    · exact h kv hkv
    · simp only [List.mem_singleton] at hkv
      subst hkv
      simp

/-! ### Cleanup-pass and add-loop lemmas -/

theorem lookupRecs_filter_cutoff (m : List (Int × List CSVRecord)) (now W k : Int) :
    lookupRecs (m.filter (fun kv => ! decide (kv.1 < now - W))) k =
      if k < now - W then [] else lookupRecs m k := by
  induction m with
  | nil => by_cases h : k < now - W <;> simp [lookupRecs, h]
  | cons a m ih =>
    by_cases ha : a.1 < now - W
    · have hpa : (! decide (a.1 < now - W)) = false := by simpa using ha
      rw [List.filter_cons, hpa]
      simp only [Bool.false_eq_true, if_false]
      rw [ih]
      by_cases hk : k < now - W
      · rw [if_pos hk, if_pos hk]
      · rw [if_neg hk, if_neg hk, lookupRecs_cons]
        have hak : ¬ (a.1 = k) := by intro h; omega
        rw [if_neg hak]
    · have hpa : (! decide (a.1 < now - W)) = true := by simpa using ha
      rw [List.filter_cons, hpa]
      simp only [if_true]
      rw [lookupRecs_cons, lookupRecs_cons]
      by_cases hak : a.1 = k
      · have hknc : ¬ (k < now - W) := by omega
        rw [if_pos hak, if_neg hknc, if_pos hak]
      · rw [if_neg hak, if_neg hak, ih]

theorem keysOf_filter_cutoff (m : List (Int × List CSVRecord)) (now W k : Int) :
    k ∈ keysOf (m.filter (fun kv => ! decide (kv.1 < now - W))) ↔
      k ∈ keysOf m ∧ ¬ (k < now - W) := by
  unfold keysOf
  simp only [List.mem_map, List.mem_filter, Bool.not_eq_eq_eq_not, Bool.not_true,
    decide_eq_false_iff_not]
  constructor
  · rintro ⟨kv, ⟨hkv, hcut⟩, rfl⟩
    exact ⟨⟨kv, hkv, rfl⟩, hcut⟩
  · rintro ⟨⟨kv, hkv, rfl⟩, hcut⟩
    exact ⟨kv, ⟨hkv, hcut⟩, rfl⟩

theorem lookupRecs_cleanup (W : Int) (st : AggState) (now k : Int) :
    lookupRecs (cleanupWindows W st now).windows k =
      if k < now - W then [] else lookupRecs st.windows k := by
  unfold cleanupWindows
  exact lookupRecs_filter_cutoff st.windows now W k

theorem keysOf_cleanup (W : Int) (st : AggState) (now k : Int) :
    k ∈ keysOf (cleanupWindows W st now).windows ↔
      k ∈ keysOf st.windows ∧ ¬ (k < now - W) := by
  unfold cleanupWindows
  exact keysOf_filter_cutoff st.windows now W k

theorem addLoop_cons (W s now : Int) (record : CSVRecord) (i : Nat) (rest : List Nat)
    (m : List (Int × List CSVRecord)) :
    addLoop W s now record (i :: rest) m =
      addLoop W s now record rest
        (if now - ((now / s) * s - (i : Int) * s) ≤ W
         then addToWindow ((now / s) * s - (i : Int) * s) record m else m) := rfl

/-- Lookup after the `addRecord` loop over a duplicate-free index list:
the record is appended exactly when some index hits key `k` within the
window span; everything else is untouched. -/
theorem lookupRecs_addLoop (W s now : Int) (record : CSVRecord) (k : Int) (hs : 0 < s) :
    ∀ (idxs : List Nat), idxs.Nodup → ∀ m,
    lookupRecs (addLoop W s now record idxs m) k =
      if ∃ i ∈ idxs, now - ((now / s) * s - (i : Int) * s) ≤ W ∧
          (now / s) * s - (i : Int) * s = k
      then lookupRecs m k ++ [record] else lookupRecs m k := by
  intro idxs
  induction idxs with
  | nil =>
    intro _ m
    simp [addLoop]
  | cons i rest ih =>
    intro hnd m
    have hnd' : rest.Nodup := hnd.of_cons
    have hinotin : i ∉ rest := by
      intro hmem
      exact (List.nodup_cons.mp hnd).1 hmem
    rw [addLoop_cons]
    by_cases hcondi : now - ((now / s) * s - (i : Int) * s) ≤ W
    · by_cases hki : (now / s) * s - (i : Int) * s = k
      · -- the head index hits `k`; no index in `rest` can hit it again
        have hnorest : ¬ ∃ j ∈ rest, now - ((now / s) * s - (j : Int) * s) ≤ W ∧
            (now / s) * s - (j : Int) * s = k := by
          rintro ⟨j, hj, _, hkj⟩
          have : (i : Int) * s = (j : Int) * s := by omega
          have hij : (i : Int) = (j : Int) :=
            mul_right_cancel₀ (by omega) this
          have : i = j := by exact_mod_cast hij
          exact hinotin (this ▸ hj)
        rw [if_pos hcondi, hki, ih hnd' (addToWindow k record m),
          if_neg hnorest, lookupRecs_addToWindow_self]
        rw [if_pos ⟨i, List.mem_cons_self i rest, hcondi, hki⟩]
      · rw [if_pos hcondi, ih hnd' _, lookupRecs_addToWindow_other _ _ (fun h => hki h.symm)]
        by_cases hrest : ∃ j ∈ rest, now - ((now / s) * s - (j : Int) * s) ≤ W ∧
            (now / s) * s - (j : Int) * s = k
        · rw [if_pos hrest]
          obtain ⟨j, hj, hcj, hkj⟩ := hrest
          rw [if_pos ⟨j, List.mem_cons_of_mem i hj, hcj, hkj⟩]
        · rw [if_neg hrest]
          rw [if_neg (by
            rintro ⟨j, hj, hcj, hkj⟩
            rcases List.mem_cons.mp hj with rfl | hj'
            · exact hki hkj
            · exact hrest ⟨j, hj', hcj, hkj⟩)]
    · rw [if_neg hcondi, ih hnd' m]
      by_cases hrest : ∃ j ∈ rest, now - ((now / s) * s - (j : Int) * s) ≤ W ∧
          (now / s) * s - (j : Int) * s = k
      · rw [if_pos hrest]
        obtain ⟨j, hj, hcj, hkj⟩ := hrest
        rw [if_pos ⟨j, List.mem_cons_of_mem i hj, hcj, hkj⟩]
      · rw [if_neg hrest]
        rw [if_neg (by
          rintro ⟨j, hj, hcj, hkj⟩
          rcases List.mem_cons.mp hj with rfl | hj'
          · exact hcondi hcj
          · exact hrest ⟨j, hj', hcj, hkj⟩)]

/-- Keys after the `addRecord` loop: every key was already present or is
one of the in-range window times of the loop. -/
theorem keysOf_addLoop_subset (W s now : Int) (record : CSVRecord) (j : Int) :
    ∀ (idxs : List Nat) (m : List (Int × List CSVRecord)),
    j ∈ keysOf (addLoop W s now record idxs m) →
      j ∈ keysOf m ∨ ∃ i ∈ idxs, (now / s) * s - (i : Int) * s = j ∧
        now - ((now / s) * s - (i : Int) * s) ≤ W := by
  intro idxs
  induction idxs with
  | nil =>
    intro m h
    exact Or.inl h
  | cons i rest ih =>
    intro m h
    rw [addLoop_cons] at h
    rcases ih _ h with hm | ⟨i', hi', hji', hci'⟩
    · by_cases hcondi : now - ((now / s) * s - (i : Int) * s) ≤ W
      · rw [if_pos hcondi] at hm
        rcases (keysOf_addToWindow _ record m j).mp hm with hm' | rfl
        · exact Or.inl hm'
        · exact Or.inr ⟨i, List.mem_cons_self i rest, rfl, hcondi⟩
      · rw [if_neg hcondi] at hm
        exact Or.inl hm
    · exact Or.inr ⟨i', List.mem_cons_of_mem i hi', hji', hci'⟩

/-! ### Window-time arithmetic -/

theorem ediv_mul_le_self_int (a b : Int) (hb : 0 < b) : (a / b) * b ≤ a := by
  have h1 := Int.ediv_add_emod a b
  have h3 : 0 ≤ a % b := Int.emod_nonneg a (by omega)
  have h2 : b * (a / b) = (a / b) * b := by ring
  omega

theorem ediv_le_ceilDivInt (a b : Int) (hb : 0 < b) : a / b ≤ ceilDivInt a b := by
  unfold ceilDivInt
  have h1 := Int.ediv_add_emod a b
  have h2 := Int.ediv_add_emod (-a) b
  have h3 : 0 ≤ a % b := Int.emod_nonneg a (by omega)
  have h4 : 0 ≤ (-a) % b := Int.emod_nonneg (-a) (by omega)
  have hsum : b * (a / b + (-a) / b) ≤ 0 := by
    have hdist : b * (a / b) + b * ((-a) / b) = b * (a / b + (-a) / b) := by ring
    omega
  by_contra hlt
  push_neg at hlt
  have hpos : (1 : Int) ≤ a / b + (-a) / b := by omega
  have hge : b * 1 ≤ b * (a / b + (-a) / b) :=
    mul_le_mul_of_nonneg_left hpos (le_of_lt hb)
  omega

theorem aligned_le_windowStart (s k now : Int) (hs : 0 < s) (hdvd : s ∣ k)
    (hk : k ≤ now) : k ≤ (now / s) * s := by
  obtain ⟨c, hc⟩ := hdvd
  have h1 : c * s ≤ now := by
    have : c * s = s * c := by ring
    omega
  have hcle : c ≤ now / s := (Int.le_ediv_iff_mul_le hs).mpr h1
  have h2 : c * s ≤ (now / s) * s := mul_le_mul_of_nonneg_right hcle (le_of_lt hs)
  have : s * c = c * s := by ring
  omega

/-- The loop of `addRecord` hits key `k` (for some index below
`maxWindows`, at a window time within the span) exactly when `k` is a
multiple of `slidingInterval` with `now - k` in `[0, windowSize]` —
the closed upper bound coming from the source's
`now - windowTime <= this.windowSize` test. -/
theorem addLoop_hit_iff (W s now k : Int) (hs : 0 < s) :
    (∃ i ∈ List.range (maxWindows W s),
        now - ((now / s) * s - (i : Int) * s) ≤ W ∧
        (now / s) * s - (i : Int) * s = k)
    ↔ (s ∣ k ∧ 0 ≤ now - k ∧ now - k ≤ W) := by
  constructor
  · rintro ⟨i, _, hcond, rfl⟩
    refine ⟨⟨now / s - (i : Int), by ring⟩, ?_, hcond⟩
    have hfl := ediv_mul_le_self_int now s hs
    have hnn : 0 ≤ (i : Int) * s := mul_nonneg (by exact_mod_cast Nat.zero_le i) (le_of_lt hs)
    omega
  · rintro ⟨hdvd, hge, hle⟩
    have hkle : k ≤ now := by omega
    have hkws : k ≤ (now / s) * s := aligned_le_windowStart s k now hs hdvd hkle
    have hdvd2 : s ∣ ((now / s) * s - k) := by
      obtain ⟨c, hc⟩ := hdvd
      exact ⟨now / s - c, by rw [hc]; ring⟩
    obtain ⟨e, he⟩ := hdvd2
    have hee : (now / s) * s - k = s * e := he
    have he0 : 0 ≤ e := by
      by_contra hneg
      push_neg at hneg
      have : s * e ≤ s * (-1) := mul_le_mul_of_nonneg_left (by omega) (le_of_lt hs)
      omega
    have hfl := ediv_mul_le_self_int now s hs
    have hesW : e * s ≤ W := by
      have h1 : e * s = s * e := by ring
      omega
    have heW : e ≤ W / s := (Int.le_ediv_iff_mul_le hs).mpr hesW
    have heceil : e ≤ ceilDivInt W s := le_trans heW (ediv_le_ceilDivInt W s hs)
    refine ⟨e.toNat, ?_, ?_, ?_⟩
    · rw [List.mem_range]
      unfold maxWindows
      have h1 : e < ceilDivInt W s + 1 := by omega
      omega
    · rw [Int.toNat_of_nonneg he0]
      have hcomm : e * s = s * e := by ring
      omega
    · rw [Int.toNat_of_nonneg he0]
      have hcomm : e * s = s * e := by ring
      omega

/-! ### Claim C1 -/

/-- C1 (amended): `addRecord` at time `now` clones the record and appends
it to exactly those windows whose `startTime` is a multiple of
`slidingInterval` and satisfies `now − startTime ∈ [0, windowSize]` — a
closed upper bound, from the source's `now - windowTime <= windowSize`
test, not the half-open `[0, windowSize)` of the claim — and appends it
to no window outside that range; out-of-range windows keep their records
unchanged, except that a triggered cleanup pass may evict a window
strictly older than `windowSize`. -/
theorem addRecord_window_membership (W s : Int) (st : AggState) (record : CSVRecord)
    (now k : Int) (hs : 0 < s) (_hW : 0 < W) :
    ((s ∣ k ∧ 0 ≤ now - k ∧ now - k ≤ W) →
      lookupRecs (addRecord W s st record now).windows k
        = lookupRecs st.windows k ++ [record]) ∧
    (¬ (s ∣ k ∧ 0 ≤ now - k ∧ now - k ≤ W) →
      lookupRecs (addRecord W s st record now).windows k = lookupRecs st.windows k ∨
      (W < now - k ∧ lookupRecs (addRecord W s st record now).windows k = [])) := by
  have hloop := lookupRecs_addLoop W s now record k hs (List.range (maxWindows W s))
    (List.nodup_range _) st.windows
  have hiff := addLoop_hit_iff W s now k hs
  unfold addRecord
  constructor
  · intro hin
    by_cases hcl : W < now - st.lastCleanup
    · rw [if_pos hcl, lookupRecs_cleanup]
      rw [if_neg (by omega)]
      rw [show (⟨addLoop W s now record (List.range (maxWindows W s)) st.windows,
          st.lastCleanup⟩ : AggState).windows
          = addLoop W s now record (List.range (maxWindows W s)) st.windows from rfl]
      rw [hloop, if_pos (hiff.mpr hin)]
    · rw [if_neg hcl]
      rw [show (⟨addLoop W s now record (List.range (maxWindows W s)) st.windows,
          st.lastCleanup⟩ : AggState).windows
          = addLoop W s now record (List.range (maxWindows W s)) st.windows from rfl]
      rw [hloop, if_pos (hiff.mpr hin)]
  · intro hout
    by_cases hcl : W < now - st.lastCleanup
    · rw [if_pos hcl, lookupRecs_cleanup]
      by_cases hk : k < now - W
      · rw [if_pos hk]
        exact Or.inr ⟨by omega, rfl⟩
      · rw [if_neg hk]
        rw [show (⟨addLoop W s now record (List.range (maxWindows W s)) st.windows,
            st.lastCleanup⟩ : AggState).windows
            = addLoop W s now record (List.range (maxWindows W s)) st.windows from rfl]
        rw [hloop, if_neg (fun h => hout (hiff.mp h))]
        exact Or.inl rfl
    · rw [if_neg hcl]
      rw [show (⟨addLoop W s now record (List.range (maxWindows W s)) st.windows,
          st.lastCleanup⟩ : AggState).windows
          = addLoop W s now record (List.range (maxWindows W s)) st.windows from rfl]
      rw [hloop, if_neg (fun h => hout (hiff.mp h))]
      exact Or.inl rfl

/-- C1 counterexample: with `windowSize = 1000`, `slidingInterval = 500`,
a record added at `t = 1000` to a fresh aggregator is appended to the
window with `startTime = 0`, even though `t − startTime = 1000 =
windowSize` lies outside the claimed half-open range `[0, windowSize)`. -/
theorem addRecord_closed_boundary_cex :
    lookupRecs (addRecord 1000 500 ⟨[], 0⟩ [("id", JsValue.num 1)] 1000).windows 0
      = [[("id", JsValue.num 1)]] ∧
    ¬ ((1000 : Int) - 0 < 1000) := by
  constructor
  · decide
  · decide

/-- Witness for `addRecord_window_membership`: the aligned window 500 is
within the closed range at `t = 1000` and receives the record. -/
theorem addRecord_window_membership_witness :
    ((0 : Int) < 500 ∧ (0 : Int) < 1000) ∧
    lookupRecs (addRecord 1000 500 ⟨[], 0⟩ [("id", JsValue.num 1)] 1000).windows 500
      = lookupRecs (⟨[], 0⟩ : AggState).windows 500 ++ [[("id", JsValue.num 1)]] :=
  ⟨⟨by decide, by decide⟩,
   (addRecord_window_membership 1000 500 ⟨[], 0⟩ [("id", JsValue.num 1)] 1000 500
      (by decide) (by decide)).1 ⟨⟨1, by decide⟩, by decide, by decide⟩⟩

/-! ### Claim C7 -/

/-- Every `addRecord` call preserves the all-windows-non-empty invariant. -/
theorem addRecord_nonempty (W s : Int) (st : AggState) (record : CSVRecord) (now : Int)
    (h : ∀ kv ∈ st.windows, kv.2 ≠ []) :
    ∀ kv ∈ (addRecord W s st record now).windows, kv.2 ≠ [] := by
  have hgen : ∀ (idxs : List Nat) (m : List (Int × List CSVRecord)),
      (∀ kv ∈ m, kv.2 ≠ []) →
      ∀ kv ∈ addLoop W s now record idxs m, kv.2 ≠ [] := by
    intro idxs
    induction idxs with
    | nil => intro m hm; exact hm
    | cons i rest ih =>
      intro m hm
      rw [addLoop_cons]
      apply ih
      by_cases hc : now - ((now / s) * s - (i : Int) * s) ≤ W
      · rw [if_pos hc]
        exact addToWindow_nonempty _ record m hm
      · rw [if_neg hc]
        exact hm
  have hloop := hgen (List.range (maxWindows W s)) st.windows h
  unfold addRecord
  by_cases hcl : W < now - st.lastCleanup
  · rw [if_pos hcl]
    intro kv hkv
    simp only [cleanupWindows] at hkv
    exact hloop kv (List.mem_of_mem_filter hkv)
  · rw [if_neg hcl]
    exact hloop

/-- C7: a cleanup pass at time `now` removes exactly the windows with
`startTime < now − windowSize`, and a window key that is evicted (hence
absent from the map) is never re-created by an `addRecord` call at any
time `t ≥ now`: the loop only touches keys with `t - key ≤ windowSize`,
and the embedded cleanup pass only removes keys. -/
theorem cleanup_exact_no_resurrection (W s : Int) (st st2 : AggState)
    (record : CSVRecord) (now t k : Int) (hnt : now ≤ t) :
    (k ∈ keysOf (cleanupWindows W st now).windows ↔
      (k ∈ keysOf st.windows ∧ ¬ (k < now - W))) ∧
    ((k < now - W ∧ k ∉ keysOf st2.windows) →
      k ∉ keysOf (addRecord W s st2 record t).windows) := by
  constructor
  · exact keysOf_cleanup W st now k
  · rintro ⟨hevict, habsent⟩ hmem
    unfold addRecord at hmem
    by_cases hcl : W < t - st2.lastCleanup
    · rw [if_pos hcl] at hmem
      have hmem' := (keysOf_cleanup W _ t k).mp hmem
      rcases keysOf_addLoop_subset W s t record k _ _ hmem'.1 with hm | ⟨i, _, hki, hci⟩
      · exact habsent hm
      · omega
    · rw [if_neg hcl] at hmem
      rcases keysOf_addLoop_subset W s t record k _ _ hmem with hm | ⟨i, _, hki, hci⟩
      · exact habsent hm
      · omega

/-- Witness for `cleanup_exact_no_resurrection`: the evicted key `-1`
(older than `now − windowSize = 1000`) is not re-created by an
`addRecord` at `t = 2000`. -/
theorem cleanup_exact_no_resurrection_witness :
    ((2000 : Int) ≤ 2000) ∧
    ((-1 : Int) ∉ keysOf (addRecord 1000 500 ⟨[], 0⟩ [("id", JsValue.num 1)] 2000).windows) :=
  ⟨by decide,
   (cleanup_exact_no_resurrection 1000 500 ⟨[], 0⟩ ⟨[], 0⟩ [("id", JsValue.num 1)]
      2000 2000 (-1) (by decide)).2 ⟨by decide, by decide⟩⟩

/-! ### Claim C10 -/

/-- C10: at every state reachable by `addRecord` calls from a fresh
aggregator, every window in the map holds at least one record (windows
are only created by `addToWindow`, which immediately appends the record);
consequently `processWindow` on any such window emits a result with
`count = records.length ≥ 1`, and its empty-window early return is
unreachable. -/
theorem windows_nonempty_invariant (W s t0 : Int) (adds : List (CSVRecord × Int)) :
    ∀ kv ∈ (runAggAdds W s t0 adds).windows,
      kv.2 ≠ [] ∧
      processWindow kv.1 kv.2 = some ⟨kv.1, kv.2.length, calculateAggregations kv.2⟩ ∧
      1 ≤ kv.2.length := by
  have hmain : ∀ (l : List (CSVRecord × Int)) (st : AggState),
      (∀ kv ∈ st.windows, kv.2 ≠ []) →
      ∀ kv ∈ (l.foldl (fun st rc => addRecord W s st rc.1 rc.2) st).windows, kv.2 ≠ [] := by
    intro l
    induction l with
    | nil => intro st h; exact h
    | cons rc rest ih =>
      intro st h
      rw [List.foldl_cons]
      exact ih _ (addRecord_nonempty W s st rc.1 rc.2 h)
  intro kv hkv
  have hne : kv.2 ≠ [] := by
    refine hmain adds ⟨[], t0⟩ ?_ kv hkv
    intro kv h
    simp at h
  refine ⟨hne, ?_, ?_⟩
  · unfold processWindow
    rw [if_neg (by simpa [List.isEmpty_iff] using hne)]
  · have := List.length_pos.mpr hne
    omega

/-- Witness for `windows_nonempty_invariant`: after one `addRecord`, the
window keyed 1000 holds the added record and is non-empty. -/
theorem windows_nonempty_invariant_witness :
    (((1000 : Int), [[("id", JsValue.num 1)]]) ∈
        (runAggAdds 1000 500 0 [([("id", JsValue.num 1)], 1000)]).windows) ∧
    ([[("id", JsValue.num 1)]] : List CSVRecord) ≠ [] :=
  ⟨by decide,
   (windows_nonempty_invariant 1000 500 0 [([("id", JsValue.num 1)], 1000)]
      ((1000 : Int), [[("id", JsValue.num 1)]]) (by decide)).1⟩

/-! ### Claim C3 -/

/-- C3: the code has no zero-record check — `processFile` wires
`stream.on('end', () => resolve())` and resolves unconditionally on
end-of-input, so a source whose decode stream produces zero records and
then ends cleanly (e.g. a CSV consisting of only a header row) resolves
successfully instead of rejecting.  This contradicts the claim, the spec
("a source with zero decoded records is treated as a failure") and the
repository's own test (`DataEngine.test.ts`, "handles empty CSV file",
which expects rejection): the code is the defect. -/
theorem processFile_zero_records_resolves :
    processFileOutcome [] SourceTerminal.endOfInput = Completion.resolved ∧
    processFileOutcome [] SourceTerminal.endOfInput ≠
      Completion.rejected "no records decoded" := by
  constructor
  · rfl
  · decide

/-! ### Claim C8 -/

/-- C8 counterexample: constructing an Engine with `batchSize = 0`,
`windowSize = 0`, `slidingInterval = 0` — all non-positive — succeeds;
no constructor validates `ProcessingOptions`, so construction does not
fail. -/
theorem engine_construct_nonpositive_ok_cex :
    dataEngineInit ⟨0, 0, 0⟩ 0 = Except.ok ⟨⟨[], 0⟩, ⟨[], false⟩, []⟩ := by
  rfl

/-- C8 (amended): constructing an Engine never fails — the `DataEngine`,
`WindowAggregator` and `StreamProcessor` constructors contain no
validation of `ProcessingOptions` and no throwing branch, so an Engine is
constructed successfully even when `batchSize`, `windowSize` or
`slidingInterval` is non-positive. -/
theorem engine_construction_never_fails (o : ProcessingOptions) (now : Int) :
    dataEngineInit o now = Except.ok ⟨⟨[], now⟩, ⟨[], false⟩, []⟩ := by
  rfl

/-! ### Claim C9 -/

/-- C9: over an Engine's lifetime, as long as `cleanup()` is not invoked,
the results log after any sequence of emissions and `getResults` calls is
the previous log with every emitted result appended in emission order:
the log grows append-only, nothing is removed or reordered, and
`getResults` (which returns the spread copy `[...this.results]`, so later
caller-side mutation cannot reach the internal array) does not change the
log. -/
theorem results_log_append_only (log : List AggregationResult) (ops : List EngineOp)
    (hnc : EngineOp.cleanup ∉ ops) :
    runEngineOps log ops = log ++ ops.filterMap emittedResult := by
  induction ops generalizing log with
  | nil => simp [runEngineOps]
  | cons op rest ih =>
    have hnc' : EngineOp.cleanup ∉ rest := fun h => hnc (List.mem_cons_of_mem op h)
    have hop : op ≠ EngineOp.cleanup := fun h => hnc (h ▸ List.mem_cons_self op rest)
    show runEngineOps (engineOpStep log op) rest = log ++ (op :: rest).filterMap emittedResult
    cases op with
    | emitResult r =>
      rw [ih _ hnc']
      simp [engineOpStep, emittedResult, List.filterMap_cons]
    | getResults =>
      rw [ih _ hnc']
      simp [engineOpStep, emittedResult, List.filterMap_cons]
    | cleanup => exact absurd rfl hop

/-- Witness for `results_log_append_only`: an emission, a `getResults`
and another emission append exactly the two results in order. -/
theorem results_log_append_only_witness :
    (EngineOp.cleanup ∉ [EngineOp.emitResult ⟨0, 1, []⟩, EngineOp.getResults,
        EngineOp.emitResult ⟨500, 2, []⟩]) ∧
    runEngineOps [] [EngineOp.emitResult ⟨0, 1, []⟩, EngineOp.getResults,
        EngineOp.emitResult ⟨500, 2, []⟩]
      = [] ++ [EngineOp.emitResult ⟨0, 1, []⟩, EngineOp.getResults,
          EngineOp.emitResult ⟨500, 2, []⟩].filterMap emittedResult :=
  ⟨by decide,
   results_log_append_only [] [EngineOp.emitResult ⟨0, 1, []⟩, EngineOp.getResults,
      EngineOp.emitResult ⟨500, 2, []⟩] (by decide)⟩

/-! ### Lookup lemmas for the statistics object -/

theorem lookupAgg_cons (a : AggKey × ℚ) (l : List (AggKey × ℚ)) (k : AggKey) :
    lookupAgg (a :: l) k = if a.1 = k then some a.2 else lookupAgg l k := by
  by_cases h : a.1 = k
  · simp [lookupAgg, List.find?_cons, h]
  · simp [lookupAgg, List.find?_cons, h]

theorem lookupAgg_append (l₁ l₂ : List (AggKey × ℚ)) (k : AggKey) :
    lookupAgg (l₁ ++ l₂) k =
      if (l₁.find? (fun kv => kv.1 == k)).isSome then lookupAgg l₁ k
      else lookupAgg l₂ k := by
  unfold lookupAgg
  rw [List.find?_append]
  cases h : l₁.find? (fun kv => kv.1 == k) <;> simp [h]

theorem statBlock_find?_other (records : List CSVRecord) (g f : String)
    (hne : g ≠ f) (sk : StatKind) :
    (statBlock records g).find? (fun kv => kv.1 == AggKey.stat f sk) = none := by
  unfold statBlock
  by_cases h : 0 < (fieldValues records g).length
  · rw [if_pos h]
    simp [List.find?_cons, hne]
  · rw [if_neg h]
    rfl

theorem foldl_statBlock_eq_flatten (records : List CSVRecord) :
    ∀ (fields : List String) (acc : List (AggKey × ℚ)),
    fields.foldl (fun acc field => acc ++ statBlock records field) acc
      = acc ++ (fields.map (statBlock records)).flatten := by
  intro fields
  induction fields with
  | nil => intro acc; simp
  | cons g rest ih =>
    intro acc
    rw [List.foldl_cons, ih, List.map_cons, List.flatten_cons, List.append_assoc]

theorem lookupAgg_flatten_blocks (records : List CSVRecord) (f : String) (sk : StatKind) :
    ∀ (fields : List String), fields.Nodup → f ∈ fields →
    lookupAgg ((fields.map (statBlock records)).flatten) (AggKey.stat f sk)
      = lookupAgg (statBlock records f) (AggKey.stat f sk) := by
  intro fields
  induction fields with
  | nil => intro _ hmem; simp at hmem
  | cons g rest ih =>
    intro hnd hmem
    rw [List.map_cons, List.flatten_cons, lookupAgg_append]
    by_cases hgf : g = f
    · subst hgf
      by_cases hfind : ((statBlock records g).find? (fun kv => kv.1 == AggKey.stat g sk)).isSome
      · rw [if_pos hfind]
      · rw [if_neg hfind]
        have hnotin : g ∉ rest := (List.nodup_cons.mp hnd).1
        have hnone : ∀ (fs : List String), g ∉ fs →
            lookupAgg ((fs.map (statBlock records)).flatten) (AggKey.stat g sk) = none := by
          intro fs
          induction fs with
          | nil => intro _; rfl
          | cons g' rest' ih' =>
            intro hn
            rw [List.map_cons, List.flatten_cons, lookupAgg_append]
            have hg' : g' ≠ g := fun h => hn (h ▸ List.mem_cons_self g' rest')
            rw [statBlock_find?_other records g' g hg' sk]
            simp only [Option.isSome_none, Bool.false_eq_true, if_false]
            exact ih' (fun h => hn (List.mem_cons_of_mem g' h))
        rw [hnone rest hnotin]
        unfold lookupAgg
        rw [Option.not_isSome_iff_eq_none.mp hfind]
        rfl
    · rw [statBlock_find?_other records g f (fun h => hgf h) sk]
      simp only [Option.isSome_none, Bool.false_eq_true, if_false]
      have hmem' : f ∈ rest := by
        rcases List.mem_cons.mp hmem with h | h
        · exact absurd h.symm hgf
        · exact h
      exact ih hnd.of_cons hmem'

theorem lookupAgg_flatten_blocks_none (records : List CSVRecord) (f : String)
    (sk : StatKind) :
    ∀ (fields : List String), f ∉ fields →
    lookupAgg ((fields.map (statBlock records)).flatten) (AggKey.stat f sk) = none := by
  intro fields
  induction fields with
  | nil => intro _; rfl
  | cons g rest ih =>
    intro hn
    rw [List.map_cons, List.flatten_cons, lookupAgg_append]
    have hg : g ≠ f := fun h => hn (h ▸ List.mem_cons_self g rest)
    rw [statBlock_find?_other records g f hg sk]
    simp only [Option.isSome_none, Bool.false_eq_true, if_false]
    exact ih (fun h => hn (List.mem_cons_of_mem g h))

theorem find?_fst_eq_of_mem_nodup (r : CSVRecord) (kv : String × JsValue)
    (hmem : kv ∈ r) (hnd : (r.map Prod.fst).Nodup) :
    r.find? (fun x => x.1 == kv.1) = some kv := by
  induction r with
  | nil => simp at hmem
  | cons a tail ih =>
    rcases List.mem_cons.mp hmem with rfl | htail
    · simp [List.find?_cons]
    · have ha : a.1 ≠ kv.1 := by
        intro h
        have : kv.1 ∈ tail.map Prod.fst := List.mem_map.mpr ⟨kv, htail, rfl⟩
        have := (List.nodup_cons.mp hnd).1
        rw [h] at this
        exact this ‹kv.1 ∈ tail.map Prod.fst›
      rw [List.find?_cons]
      have hbeq : (a.1 == kv.1) = false := by simpa using ha
      rw [hbeq]
      exact ih htail ((List.nodup_cons.mp hnd).2)

theorem foldl_add_eq_sum (l : List ℚ) : l.foldl (· + ·) 0 = l.sum := by
  have hgen : ∀ (l : List ℚ) (a : ℚ), l.foldl (· + ·) a = a + l.sum := by
    intro l
    induction l with
    | nil => intro a; simp
    | cons x xs ih =>
      intro a
      rw [List.foldl_cons, ih, List.sum_cons]
      ring
  rw [hgen l 0]
  ring

/-! ### Claim C2 -/

/-- C2 (amended): for every non-empty group (with duplicate-free field
names in its first record, as JS objects guarantee), the per-group
statistics hold `count = group size`, and, for exactly those fields that
held a number-typed value in the **first** record of the group, `sum`,
`avg`, `max` and `min` computed over the occurrences of that field whose
JS `Number()` coercion is not `NaN` — number-typed occurrences and
numeric strings alike, the latter being coerced to numbers (the source
filters only `NaN`, it does not check `typeof`); missing occurrences and
non-numeric strings are skipped.  `avg` equals `sum` divided by the
count of included occurrences, not the group's total record count.
Fields not numeric in the first record get no statistics entries. -/
theorem calculateGroupAggregations_stats (records : List CSVRecord)
    (hne : records ≠ []) (hwf : ((records.headD []).map Prod.fst).Nodup) :
    lookupAgg (calculateGroupAggregations records) AggKey.count
      = some ((records.length : ℚ)) ∧
    (∀ f ∈ getNumericFields (records.headD []),
      fieldValues records f ≠ [] ∧
      lookupAgg (calculateGroupAggregations records) (AggKey.stat f StatKind.sum)
        = some (fieldValues records f).sum ∧
      lookupAgg (calculateGroupAggregations records) (AggKey.stat f StatKind.avg)
        = some ((fieldValues records f).sum / ((fieldValues records f).length : ℚ)) ∧
      lookupAgg (calculateGroupAggregations records) (AggKey.stat f StatKind.max)
        = some (listMax (fieldValues records f)) ∧
      lookupAgg (calculateGroupAggregations records) (AggKey.stat f StatKind.min)
        = some (listMin (fieldValues records f))) ∧
    (∀ f, f ∉ getNumericFields (records.headD []) → ∀ sk,
      lookupAgg (calculateGroupAggregations records) (AggKey.stat f sk) = none) := by
  obtain ⟨r₀, rest, rfl⟩ : ∃ r₀ rest, records = r₀ :: rest := by
    cases records with
    | nil => exact absurd rfl hne
    | cons a l => exact ⟨a, l, rfl⟩
  simp only [List.headD_cons] at hwf ⊢
  have hfldnd : (getNumericFields r₀).Nodup := by
    have hsub : List.Sublist
        ((r₀.filter (fun kv =>
          !(kv.1 == "timestamp") &&
          (match kv.2 with | JsValue.num _ => true | JsValue.str _ => false))).map Prod.fst)
        (r₀.map Prod.fst) :=
      (List.filter_sublist r₀).map Prod.fst
    exact hwf.sublist hsub
  have hcga : calculateGroupAggregations (r₀ :: rest)
      = (AggKey.count, (((r₀ :: rest).length : Nat) : ℚ)) ::
        ((getNumericFields r₀).map (statBlock (r₀ :: rest))).flatten := by
    unfold calculateGroupAggregations
    simp only [List.headD_cons]
    rw [foldl_statBlock_eq_flatten, List.nil_append]
  refine ⟨?_, ?_, ?_⟩
  · rw [hcga, lookupAgg_cons, if_pos rfl]
  · intro f hf
    have hvs : fieldValues (r₀ :: rest) f ≠ [] := by
      obtain ⟨kv, hkvf, hkv1⟩ := List.mem_map.mp hf
      obtain ⟨hkvmem, hkvp⟩ := List.mem_filter.mp hkvf
      obtain ⟨q, hq⟩ : ∃ q, kv.2 = JsValue.num q := by
        cases hv : kv.2 with
        | num q => exact ⟨q, rfl⟩
        | str s => rw [hv] at hkvp; simp at hkvp
      have hfind : r₀.find? (fun x => x.1 == f) = some kv := by
        rw [← hkv1]
        exact find?_fst_eq_of_mem_nodup r₀ kv hkvmem hwf
      have hlf : lookupField r₀ f = some (JsValue.num q) := by
        unfold lookupField
        rw [hfind]
        simp [hq]
      unfold fieldValues
      rw [List.map_cons, hlf]
      simp [jsToNumber, List.filterMap_cons]
    have hpos : 0 < (fieldValues (r₀ :: rest) f).length := List.length_pos.mpr hvs
    have hstat : ∀ sk, lookupAgg (calculateGroupAggregations (r₀ :: rest)) (AggKey.stat f sk)
        = lookupAgg (statBlock (r₀ :: rest) f) (AggKey.stat f sk) := by
      intro sk
      rw [hcga, lookupAgg_cons, if_neg (fun h => AggKey.noConfusion h)]
      exact lookupAgg_flatten_blocks (r₀ :: rest) f sk (getNumericFields r₀) hfldnd hf
    have hblock : statBlock (r₀ :: rest) f =
        [(AggKey.stat f StatKind.sum, (fieldValues (r₀ :: rest) f).sum),
         (AggKey.stat f StatKind.avg,
           (fieldValues (r₀ :: rest) f).sum / (((fieldValues (r₀ :: rest) f).length : Nat) : ℚ)),
         (AggKey.stat f StatKind.max, listMax (fieldValues (r₀ :: rest) f)),
         (AggKey.stat f StatKind.min, listMin (fieldValues (r₀ :: rest) f))] := by
      unfold statBlock
      rw [if_pos hpos, foldl_add_eq_sum]
    refine ⟨hvs, ?_, ?_, ?_, ?_⟩ <;>
      rw [hstat, hblock] <;>
      simp [lookupAgg_cons]
  · intro f hf sk
    rw [hcga, lookupAgg_cons, if_neg (fun h => AggKey.noConfusion h)]
    exact lookupAgg_flatten_blocks_none (r₀ :: rest) f sk (getNumericFields r₀) hf

/-- C2 counterexample: the records `[a: 5 (number)]` and `[a: "5"
(string)]` fall into the same group (their group keys both render as
`a:5`); the computed group statistic `a_sum` is `10` because the string
occurrence `"5"` is coerced by `Number()` and included, whereas the sum
over only the number-typed occurrences of `a` is `5`.  Non-numeric
occurrences are therefore not always skipped: numeric strings are
coerced and counted, refuting the claim. -/
theorem groupAggregations_numeric_string_cex :
    getGroupKey [("a", JsValue.num 5)] = "a:5" ∧
    getGroupKey [("a", JsValue.str "5")] = "a:5" ∧
    lookupAgg (calculateGroupAggregations [[("a", JsValue.num 5)], [("a", JsValue.str "5")]])
      (AggKey.stat "a" StatKind.sum) = some 10 ∧
    (([[("a", JsValue.num 5)], [("a", JsValue.str "5")]] : List CSVRecord).filterMap
        (fun r => match lookupField r "a" with
          | some (JsValue.num q) => some q
          | _ => none)).sum = 5 ∧
    (10 : ℚ) ≠ 5 := by
  have h5 : parseJsNumber "5" = some (1 * ((5 : Nat) : ℚ)) := rfl
  have hfv : fieldValues [[("a", JsValue.num 5)], [("a", JsValue.str "5")]] "a"
      = [(5 : ℚ), (5 : ℚ)] := by
    unfold fieldValues lookupField
    simp [List.find?_cons, jsToNumber, h5, List.filterMap_cons]
  refine ⟨by decide, by decide, ?_, ?_, by norm_num⟩
  · unfold calculateGroupAggregations
    rw [show getNumericFields
        (([[("a", JsValue.num 5)], [("a", JsValue.str "5")]] : List CSVRecord).headD [])
        = ["a"] from by decide]
    rw [List.foldl_cons, List.foldl_nil, List.nil_append]
    simp only [statBlock]
    rw [hfv]
    rw [if_pos (by decide : 0 < ([(5 : ℚ), (5 : ℚ)]).length)]
    rw [lookupAgg_cons, if_neg (by decide : ¬ (AggKey.count = AggKey.stat "a" StatKind.sum))]
    rw [lookupAgg_cons,
      if_pos (rfl : AggKey.stat "a" StatKind.sum = AggKey.stat "a" StatKind.sum)]
    rw [List.foldl_cons, List.foldl_cons, List.foldl_nil]
    norm_num
  · rw [show (([[("a", JsValue.num 5)], [("a", JsValue.str "5")]] : List CSVRecord).filterMap
        (fun r => match lookupField r "a" with
          | some (JsValue.num q) => some q
          | _ => none)) = [(5 : ℚ)] from by
      unfold lookupField
      simp [List.find?_cons, List.filterMap_cons]]
    norm_num

/-- Witness for `calculateGroupAggregations_stats` at a concrete
two-record group. -/
theorem calculateGroupAggregations_stats_witness :
    (([[("x", JsValue.num 2)], [("x", JsValue.num 4)]] : List CSVRecord) ≠ []) ∧
    lookupAgg (calculateGroupAggregations [[("x", JsValue.num 2)], [("x", JsValue.num 4)]])
      AggKey.count = some (((2 : Nat) : ℚ)) :=
  ⟨by decide,
   (calculateGroupAggregations_stats [[("x", JsValue.num 2)], [("x", JsValue.num 4)]]
      (by decide) (by decide)).1⟩
